import Mathlib

/-!
Verification of the path-interning and document-tree subsystems of the
`sqlite-test` repository (files `src/path.rs` and `src/main.rs`).

Strings are modelled as `List Char` (Rust `String` is a byte sequence;
all strings here are ASCII, and Rust's lexicographic byte order agrees
with `Char` order on them).

Two views of paths are used, both translated from `src/path.rs`:

* `PathT`, a pure tree of path nodes.  The interner guarantees that two
  `ModelPath` handles are pointer-identical iff the chains of
  `(parent, name)` pairs they denote are equal, so structural equality
  on `PathT` models the pointer-identity `PartialEq` of `ModelPath`
  (`src/path.rs:78-82`).  This view is used for the document model.

* `InternState` together with `joinS`/`parseS`, an explicit model of the
  global interner table `PATH_NODE_TABLE` (`src/path.rs:46-49`), where a
  path node is named by the `Nat` index at which it was allocated; node
  `0` is the statically allocated root `ROOT_PATH_NODE`.  Pointer
  identity of handles is equality of these indices.  Each
  `entry(..).or_insert_with(..)` call on the `DashMap` holds the shard
  lock, so a concurrent execution is an interleaving of atomic
  insert-or-fetch steps; the relation `ReachFrom` below ranges over
  exactly these interleavings.
-/

/-- A path node, `PathNodeKind` from `src/path.rs:7-11`: either the root
sentinel or a part with a parent node and a segment name.  Structural
equality models pointer identity of interned nodes (see header). -/
inductive PathT where
  | root : PathT
  | part (parent : PathT) (name : List Char) : PathT
deriving DecidableEq

/-- `ModelPath::join` (`src/path.rs:101-119`): the canonical node for
`(self, part)`.  In the interner, this is insert-or-fetch; the node it
returns always has `self` as parent and `part` as name, which is all
that the pure view records. -/
def PathT.join (p : PathT) (n : List Char) : PathT := .part p n

/-- `ModelPath::parent` (`src/path.rs:137-144`). -/
def pathParent : PathT → Option PathT
  | .root => none
  | .part p _ => some p

/-- `ModelPath::name` (`src/path.rs:172-177`): the default (empty) atom
for the root. -/
def pathName : PathT → List Char
  | .root => []
  | .part _ n => n

/-- `PathNode::to_string` (`src/path.rs:27-37`): empty for the root,
otherwise the parent's string, then `'/'`, then the name. -/
def toStringAux : PathT → List Char
  | .root => []
  | .part p n => toStringAux p ++ '/' :: n

/-- `ModelPath::to_string` (`src/path.rs:179-184`): `"/"` for the root,
otherwise `PathNode::to_string`. -/
def pathToString : PathT → List Char
  | .root => ['/']
  | .part p n => toStringAux (.part p n)

/-- Rust `str::rsplit_once('/')` (used at `src/path.rs:187`): splits at
the last `'/'`, returning the parts before and after it, or `none` if
there is no `'/'`. -/
def rsplitOnce : List Char → Option (List Char × List Char)
  | [] => none
  | c :: rest =>
    match rsplitOnce rest with
    | some (pre, name) => some (c :: pre, name)
    | none => if c = '/' then some ([], rest) else none

/-- `ModelPath::parse` (`src/path.rs:186-192`), with explicit fuel so
that the kernel can evaluate it; `parse` below supplies sufficient fuel
and `parse_eq` recovers the source's defining equation. -/
def parseF : Nat → List Char → PathT
  | 0, _ => .root
  | fuel + 1, l =>
    match rsplitOnce l with
    | some (pre, name) => (parseF fuel pre).join name
    | none => .root

/-- `ModelPath::parse` (`src/path.rs:186-192`): recursively parse the
part before the last `'/'` and join the trailing segment; an input with
no `'/'` at all returns the root handle. -/
def parse (l : List Char) : PathT := parseF (l.length + 1) l

/-- The loop body of `ModelPath::is_prefix` (`src/path.rs:162-170`)
with a fuel bound on the number of iterations.  The source loop is
`let mut p = Some(other); while let Some(p) = p { if p == self { return true } }`:
the inner `p` shadows the outer one and the body never reassigns it, so
each iteration re-examines the same node.  `none` is returned on fuel
exhaustion; the loop diverges exactly when every fuel yields `none`. -/
def isPrefixLoop (self : PathT) : Nat → Option PathT → Option Bool
  | _, none => some false
  | 0, some _ => none
  | fuel + 1, some p => if p = self then some true else isPrefixLoop self fuel (some p)

/-- Abbreviation turning a string literal into the `List Char` used by
the model. -/
def str (s : String) : List Char := s.data

/-- A row of the `named_objects` table (`src/main.rs:100-107`):
`rowid`, `name`, `path`.  The `parent` column is always null and never
read, so it is omitted; `path` is declared `not null`, and every insert
by this program stores text, so the path is a plain string. -/
structure Row where
  id : Int
  name : List Char
  path : List Char
deriving DecidableEq

/-- The backing sqlite store: the `named_objects` rows in insertion
order (which is also rowid order, as nothing is ever deleted) and the
next rowid the store will assign. -/
structure Store where
  rows : List Row
  nextId : Int
deriving DecidableEq

/-- `setup_schema` (`src/main.rs:97-124`): create-if-absent of the
tables is a no-op on the model; `insert or ignore` of the root row
`('','',null)` inserts `(name = '', path = '')` unless a row with the
unique path `''` already exists. -/
def setupSchema (st : Store) : Store :=
  if st.rows.any (fun r => r.path = []) then st
  else { rows := st.rows ++ [⟨st.nextId, [], []⟩], nextId := st.nextId + 1 }

/-- A document tree node, `Node` from `src/main.rs:40-44`: a
`NamedObject` base (id and path, `src/main.rs:21-25`) plus a map from
child segment to child node.  The `HashTrieMap` is modelled as an
association list with at most one entry per key. -/
inductive DocNode where
  | mk (id : Int) (path : PathT) (children : List (List Char × DocNode)) : DocNode

/-- The row id of a node's `NamedObject` base. -/
def DocNode.idn : DocNode → Int
  | .mk i _ _ => i

/-- The path of a node's `NamedObject` base. -/
def DocNode.path : DocNode → PathT
  | .mk _ p _ => p

/-- The children map of a node. -/
def DocNode.children : DocNode → List (List Char × DocNode)
  | .mk _ _ c => c

/-- `HashTrieMap::get` (used by `Node::find_child`, `src/main.rs:57-59`)
on the association-list model. -/
def lookupAssoc : List (List Char × DocNode) → List Char → Option DocNode
  | [], _ => none
  | (k, v) :: rest, key => if k = key then some v else lookupAssoc rest key

/-- `HashTrieMap::insert_mut` (used by `Node::add_child`,
`src/main.rs:65-67`): replace the entry for the key if present,
otherwise add one. -/
def insertAssoc (key : List Char) (v : DocNode) :
    List (List Char × DocNode) → List (List Char × DocNode)
  | [] => [(key, v)]
  | (k, w) :: rest =>
    if k = key then (key, v) :: rest else (k, w) :: insertAssoc key v rest

/-- `Node::add_child` (`src/main.rs:65-67`): insert the node into the
children map keyed by the node's own path's last segment. -/
def addChild (q n : DocNode) : DocNode :=
  .mk q.idn q.path (insertAssoc (pathName n.path) n q.children)

/-- `Document::find_node` (`src/main.rs:206-214`): recursive descent by
`split_last`, from the root node of the document. -/
def findNode (r : DocNode) : PathT → Option DocNode
  | .root => some r
  | .part pre last =>
    match findNode r pre with
    | none => none
    | some q => lookupAssoc q.children last

/-- `Document::find_node_mut` followed by an update of the node it
returns (`src/main.rs:216-224`): descend to `p`, apply `f` to the node
found there, and rebuild the tree along the way.  `none` exactly when
`find_node_mut` returns `None`, i.e. some segment on the way is
absent, or when `f` itself fails. -/
def modifyAtO (r : DocNode) : PathT → (DocNode → Option DocNode) → Option DocNode
  | .root, f => f r
  | .part pre last, f =>
    modifyAtO r pre (fun q =>
      match lookupAssoc q.children last with
      | none => none
      | some c => (f c).map (fun c2 => DocNode.mk q.idn q.path (insertAssoc last c2 q.children)))

/-- One step of the reconstruction loop in `Document::open`
(`src/main.rs:170-180`): a root-path node replaces `document.root`;
any other node is attached under the node found at its parent path.
`none` models the `.unwrap()` panic when `find_node_mut` finds no node
at the parent path. -/
def insertLoaded (cur n : DocNode) : Option DocNode :=
  match pathParent n.path with
  | none => some n
  | some pp => modifyAtO cur pp (fun q => some (addChild q n))

/-- The whole reconstruction loop of `Document::open`, over the sorted
node list. -/
def insertAll : DocNode → List DocNode → Option DocNode
  | cur, [] => some cur
  | cur, n :: rest =>
    match insertLoaded cur n with
    | none => none
    | some cur2 => insertAll cur2 rest

/-- Strict lexicographic order on strings, Rust's `String::cmp` used by
the `sort_by` in `Document::open` (`src/main.rs:156`): a proper prefix
sorts first. -/
def lexLt : List Char → List Char → Bool
  | [], [] => false
  | [], _ :: _ => true
  | _ :: _, [] => false
  | a :: as_, b :: bs => if a < b then true else if b < a then false else lexLt as_ bs

/-- Insert into a list sorted by `lexLt` on the first component. -/
def insSorted (x : List Char × DocNode) :
    List (List Char × DocNode) → List (List Char × DocNode)
  | [] => [x]
  | y :: ys => if lexLt x.1 y.1 then x :: y :: ys else y :: insSorted x ys

/-- The `nodes.sort_by(|(a,_),(b,_)| a.cmp(b))` of `Document::open`
(`src/main.rs:156`) as insertion sort.  Every path string in the store
is distinct (unique constraint) but two distinct stored strings can
parse and re-render to the same key; the claims below never depend on
the relative order of equal keys. -/
def sortNodes : List (List Char × DocNode) → List (List Char × DocNode)
  | [] => []
  | x :: xs => insSorted x (sortNodes xs)

/-- The row-loading loop of `Document::open` (`src/main.rs:133-154`):
each row's path text is parsed (`path` is never null, see `Row`), and
paired with its canonical string form as the sort key. -/
def loadRows (rows : List Row) : List (List Char × DocNode) :=
  rows.map (fun r => (pathToString (parse r.path), DocNode.mk r.id (parse r.path) []))

/-- `Document::open` (`src/main.rs:128-198`): ensure the schema, load
and sort the rows, and fold them into a tree starting from the default
document whose root node has id 0 and the root path.  The result is the
store after `setup_schema` and the reconstructed root node; `none`
models the `.unwrap()` panic on a missing parent (`src/main.rs:175-177`). -/
def openDoc (st : Store) : Option (Store × DocNode) :=
  let st1 := setupSchema st
  match insertAll (DocNode.mk 0 PathT.root []) ((sortNodes (loadRows st1.rows)).map (fun x => x.2)) with
  | none => none
  | some root => some (st1, root)

/-- `Document::create_node` (`src/main.rs:238-255`): insert a row
`(name, path, null)`; the unique constraint on `path` rejects a
duplicate path string.  On success the store assigns the next rowid and
the returned node has empty children.  The document tree itself is not
touched (`src/main.rs:253`). -/
def createNode (st : Store) (p : PathT) : Except Unit (Store × DocNode) :=
  let pstr := pathToString p
  if st.rows.any (fun r => r.path = pstr) then .error ()
  else .ok ({ rows := st.rows ++ [⟨st.nextId, pathName p, pstr⟩], nextId := st.nextId + 1 },
            .mk st.nextId p [])

/-- The global interner state: the `PATH_NODE_TABLE`
(`src/path.rs:46-49`), mapping a `PathKey` — parent node identity plus
segment — to the identity of the interned node, together with the next
fresh node identity.  Identities are allocation indices standing for
the `Arc` pointers of the source. -/
structure InternState where
  table : List ((Nat × List Char) × Nat)
  next : Nat
deriving DecidableEq

/-- The identity of the statically allocated `ROOT_PATH_NODE`
(`src/path.rs:47`). -/
def rootId : Nat := 0

/-- The interner state at process start: empty table, root already
allocated at identity 0. -/
def initState : InternState := ⟨[], 1⟩

/-- `DashMap::get`-side of the `entry` lookup: find the node identity
stored for a `PathKey`. -/
def lookupKey : List ((Nat × List Char) × Nat) → Nat × List Char → Option Nat
  | [], _ => none
  | (k, v) :: rest, key => if k = key then some v else lookupKey rest key

/-- `ModelPath::join` on the interner (`src/path.rs:101-119`):
`entry(PathKey{parent, part}).or_insert_with(new node)` — fetch the
node for the key if present, otherwise allocate a fresh node and insert
it.  Each such call is atomic (the `DashMap` entry holds its shard's
lock for the whole insert-or-fetch). -/
def joinS (s : InternState) (parent : Nat) (name : List Char) : InternState × Nat :=
  match lookupKey s.table (parent, name) with
  | some id => (s, id)
  | none => (⟨((parent, name), s.next) :: s.table, s.next + 1⟩, s.next)

/-- `ModelPath::parse` against the interner (`src/path.rs:186-192`),
fuel-indexed as `parseF`. -/
def parseSF : Nat → InternState → List Char → InternState × Nat
  | 0, s, _ => (s, rootId)
  | fuel + 1, s, l =>
    match rsplitOnce l with
    | some (pre, name) =>
      let r := parseSF fuel s pre
      joinS r.1 r.2 name
    | none => (s, rootId)

/-- `ModelPath::parse` against the interner: parse the part before the
last `'/'`, then join the trailing segment; no `'/'` returns the root
handle. -/
def parseS (s : InternState) (l : List Char) : InternState × Nat :=
  parseSF (l.length + 1) s l

/-- Every table entry of `s` is present, with the same node, in `t`. -/
def Extends (s t : InternState) : Prop :=
  ∀ k v, lookupKey s.table k = some v → lookupKey t.table k = some v

/-- Interleavings of atomic interner operations: `t` is reachable from
`s` by some sequence of `join` calls (every `parse` is a chain of such
calls).  Concurrent callers of the interner interleave exactly these
steps, since each `entry` call is atomic. -/
inductive ReachFrom : InternState → InternState → Prop
  | refl {s} : ReachFrom s s
  | join {s t} (p : Nat) (n : List Char) : ReachFrom s t → ReachFrom s (joinS t p n).1

/-- The structural invariant claimed of every document node: each entry
`(name, child)` of the children map satisfies
`child.base.path == node.base.path.join(name)` (spec §3, claim C8),
recursively. -/
inductive InvNode : DocNode → Prop
  | mk (id : Int) (p : PathT) (children : List (List Char × DocNode))
      (hpath : ∀ k c, (k, c) ∈ children → c.path = p.join k)
      (hinv : ∀ k c, (k, c) ∈ children → InvNode c) :
      InvNode (.mk id p children)

/-- Document states reachable through the public operations.  Only
`Document::open` constructs or mutates a document tree:
`Document::create_node` returns the new node without attaching it
(`src/main.rs:253`) and `Document::write` takes `&self`; both leave the
tree untouched, so they are identity steps. -/
inductive ReachableDoc : DocNode → Prop
  | opened {st st2 : Store} {d : DocNode} : openDoc st = some (st2, d) → ReachableDoc d
  | createStep {d : DocNode} : ReachableDoc d → ReachableDoc d
  | writeStep {d : DocNode} : ReachableDoc d → ReachableDoc d

/-- `update named_objects set name=?1, path=?2 where rowid=?3`
(`src/main.rs:32-35`): rewrite the columns of the row with the given
rowid (no row matching is not an error for sqlite). -/
def updateRow (rows : List Row) (id : Int) (nm pstr : List Char) : List Row :=
  rows.map (fun r => if r.id = id then ⟨r.id, nm, pstr⟩ else r)

/-- `NamedObject::write` (`src/main.rs:29-37`): update the row; the
oracle `fail` says which row updates the store fails (any sqlite error
for that statement). -/
def namedWrite (fail : Int → Bool) (rows : List Row) (id : Int) (p : PathT) :
    Except Unit (List Row) :=
  if fail id then .error () else .ok (updateRow rows id (pathName p) (pathToString p))

mutual

/-- `Node::write` (`src/main.rs:48-55`): write the base row,
propagating its failure with `?`; then call `write` on every child —
the loop at `src/main.rs:51-53` discards each child call's `Result`
(only the store effects remain) — and return `Ok(())`. -/
def nodeWrite (fail : Int → Bool) (n : DocNode) (rows : List Row) :
    List Row × Except Unit Unit :=
  match n with
  | .mk id p children =>
    match namedWrite fail rows id p with
    | .error e => (rows, .error e)
    | .ok rows1 => (childrenWrite fail children rows1, .ok ())

/-- The child loop of `Node::write`: thread the store through every
child's write, dropping every child's returned `Result`. -/
def childrenWrite (fail : Int → Bool) (cs : List (List Char × DocNode)) (rows : List Row) :
    List Row :=
  match cs with
  | [] => rows
  | (_, c) :: rest => childrenWrite fail rest (nodeWrite fail c rows).1

end

/-- `Document::write` (`src/main.rs:200-204`): `self.root.write(conn)?`
then `Ok(())`. -/
def docWrite (fail : Int → Bool) (d : DocNode) (rows : List Row) :
    List Row × Except Unit Unit :=
  match nodeWrite fail d rows with
  | (rows1, .error e) => (rows1, .error e)
  | (rows1, .ok _) => (rows1, .ok ())

/-- One `doc.create_node(&connection, ModelPath::parse(p))` call of
`main` (`src/main.rs:269-275`): the returned `Result` is discarded, so
on a constraint violation the store is simply left unchanged. -/
def mainStep (st : Store) (p : List Char) : Store :=
  match createNode st (parse p) with
  | .ok (st2, _) => st2
  | .error _ => st

/-- The seven paths created by `main` (`src/main.rs:269-275`). -/
def mainPaths : List (List Char) :=
  [str "/node_a", str "/node_a/node_b", str "/node_a/node_b/node_c",
   str "/node_a/node_b/node_d", str "/node_a/node_b/node_e",
   str "/node_a/node_f", str "/node_g"]

/-- The store contents after `main` runs against an initially empty
store: `Document::open` installs the schema and the root row, then the
seven `create_node` calls insert their rows. -/
def scenarioStore : Store := mainPaths.foldl mainStep (setupSchema ⟨[], 1⟩)

/-- The document returned by reopening the scenario store. -/
def scenarioDoc : Option DocNode := (openDoc scenarioStore).map (fun x => x.2)

/-- The child names of the node found at `p`, for stating the scenario
claims. -/
def namesAt (od : Option DocNode) (p : PathT) : Option (List (List Char)) :=
  od.bind (fun d => (findNode d p).map (fun n => n.children.map (fun kv => kv.1)))

/-- A store whose only non-root row is `/a/b`, whose parent row `/a` is
absent: the corrupted-store shape of claim C5. -/
def orphanStore : Store := ⟨[⟨1, [], []⟩, ⟨2, str "b", str "/a/b"⟩], 3⟩

/-- The failure oracle for claim C4: the store fails the row update for
rowid 2 and succeeds on every other row. -/
def failOn2 : Int → Bool := fun i => i == 2

/-- The child node of the C4 tree: row 2 at path `/a`, no children. -/
def c4child : DocNode := .mk 2 (PathT.join .root (str "a")) []

/-- The C4 tree: the root node (row 1) with the single child `a`. -/
def c4tree : DocNode := .mk 1 .root [(str "a", c4child)]

/-- The canonical absolute rendering of a list of segments:
`/s1/s2/.../sn`.  A path string is in canonical form (claim C7: no
empty segments, no trailing slash, no double slash) exactly when it is
`render segs` for a non-empty `segs` whose segments are non-empty and
slash-free. -/
def render (segs : List (List Char)) : List Char :=
  segs.foldr (fun s acc => '/' :: (s ++ acc)) []

/-- The path handle obtained by joining the segments against the root,
left to right. -/
def buildPath (segs : List (List Char)) : PathT :=
  segs.foldl PathT.join PathT.root

/-- Path `/node_a` of the scenario. -/
def pNodeA : PathT := PathT.join .root (str "node_a")

/-- Path `/node_a/node_b` of the scenario. -/
def pNodeAB : PathT := PathT.join pNodeA (str "node_b")

theorem rsplitOnce_some {l pre name : List Char} (h : rsplitOnce l = some (pre, name)) :
    l = pre ++ '/' :: name := by
  induction l generalizing pre name with
  | nil => simp [rsplitOnce] at h
  | cons c rest ih =>
    rw [rsplitOnce] at h
    cases hr : rsplitOnce rest with
    | some pn =>
      obtain ⟨p0, n0⟩ := pn
      rw [hr] at h
      have h2 : some (c :: p0, n0) = some (pre, name) := h
      injection h2 with h3
      injection h3 with h4 h5
      subst h4; subst h5
      simp [ih hr]
    | none =>
      rw [hr] at h
      by_cases hc : c = '/'
      · subst hc
        have h2 : some (([] : List Char), rest) = some (pre, name) := by
          simpa using h
        injection h2 with h3
        injection h3 with h4 h5
        subst h4; subst h5
        rfl
      · have h2 : (if c = '/' then some (([] : List Char), rest) else none) = some (pre, name) := h
        rw [if_neg hc] at h2
        exact absurd h2 (by simp)

theorem rsplitOnce_of_not_mem {l : List Char} (h : '/' ∉ l) : rsplitOnce l = none := by
  induction l with
  | nil => rfl
  | cons c rest ih =>
    simp only [List.mem_cons, not_or] at h
    rw [rsplitOnce, ih h.2, if_neg (Ne.symm h.1)]

theorem parseF_irrel : ∀ (f1 f2 : Nat) (l : List Char), l.length < f1 → l.length < f2 →
    parseF f1 l = parseF f2 l := by
  intro f1
  induction f1 with
  | zero => intro f2 l h1 _; exact absurd h1 (Nat.not_lt_zero _)
  | succ n ih =>
    intro f2 l h1 h2
    cases f2 with
    | zero => exact absurd h2 (Nat.not_lt_zero _)
    | succ m =>
      simp only [parseF]
      cases hr : rsplitOnce l with
      | none => rfl
      | some pn =>
        obtain ⟨pre, name⟩ := pn
        have hl : pre.length < l.length := by
          have := rsplitOnce_some hr
          subst this
          simp [List.length_append]
        show (parseF n pre).join name = (parseF m pre).join name
        rw [ih m pre (by omega) (by omega)]

theorem parse_eq (l : List Char) :
    parse l = match rsplitOnce l with
      | some (pre, name) => (parse pre).join name
      | none => PathT.root := by
  cases hr : rsplitOnce l with
  | none =>
    show parseF (l.length + 1) l = PathT.root
    simp only [parseF, hr]
  | some pn =>
    obtain ⟨pre, name⟩ := pn
    have hl : pre.length < l.length := by
      have := rsplitOnce_some hr
      subst this
      simp [List.length_append]
    show parseF (l.length + 1) l = (parseF (pre.length + 1) pre).join name
    simp only [parseF, hr]
    show (parseF l.length pre).join name = (parseF (pre.length + 1) pre).join name
    rw [parseF_irrel l.length (pre.length + 1) pre (by omega) (by omega)]

/-- Claim C6, as stated, is false: for a non-empty slash-free input the
`else` branch of `ModelPath::parse` (`src/path.rs:190`) returns the
root handle itself, not `root().join(s)`; at `s = "a"` the two handles
differ. -/
theorem parse_single_segment_cex :
    parse (str "a") = PathT.root ∧ parse (str "a") ≠ PathT.join PathT.root (str "a") := by
  constructor
  · rfl
  · decide

/-- Claim C6 (amended): for every input string with no `'/'` — the
empty string included — `ModelPath::parse` returns the Root handle;
the lone segment of a non-empty such input is dropped. -/
theorem parse_no_slash_root (l : List Char) (h : '/' ∉ l) : parse l = PathT.root := by
  rw [parse_eq, rsplitOnce_of_not_mem h]

/-- Witness for `parse_no_slash_root` at the concrete input `"abc"`. -/
theorem parse_no_slash_root_app : parse (str "abc") = PathT.root :=
  parse_no_slash_root (str "abc") (by decide)

/-- Claim C3: the loop of `ModelPath::is_prefix` (`src/path.rs:162-170`)
never advances `p` toward the parent, so whenever `other` is not
identical to `self` — in particular for `other = self.join(x)` — no
number of iterations returns: the call diverges instead of returning
`true` for descendants and `false` for non-descendants. -/
theorem isPrefixLoop_never_advances (self other : PathT) (h : other ≠ self) :
    ∀ fuel, isPrefixLoop self fuel (some other) = none := by
  intro fuel
  induction fuel with
  | zero => rfl
  | succ n ih => rw [isPrefixLoop, if_neg h, ih]

/-- Witness for `isPrefixLoop_never_advances` at the claim's own
instance `P.is_prefix(P.join(x))` with `P = root`, `x = "a"`. -/
theorem isPrefixLoop_never_advances_app :
    isPrefixLoop PathT.root 9 (some (PathT.join PathT.root (str "a"))) = none :=
  isPrefixLoop_never_advances PathT.root (PathT.join PathT.root (str "a")) (by decide) 9

/-- Claim C10: `parse("/")` interns a Part node with an empty segment
under Root, so its handle is not identity-equal to `root()` — in the
interner model the two handles are the distinct node identities 1 and
0 — even though both render to the string `"/"`. -/
theorem parse_slash_ne_root :
    parse (str "/") ≠ PathT.root ∧ parse (str "/") = PathT.part PathT.root [] ∧
    pathToString (parse (str "/")) = pathToString PathT.root ∧
    (parseS initState (str "/")).2 ≠ rootId := by
  refine ⟨by decide, rfl, rfl, by decide⟩

/-- Claim C5: on a store holding a child row `/a/b` whose parent row
`/a` is absent, `Document::open` does not return an error value — it
panics on the `.unwrap()` at `src/main.rs:175-177` (modelled by
`none`), aborting instead of surfacing a recoverable load error. -/
theorem open_missing_parent_panics : openDoc orphanStore = none := rfl

/-- Claim C4: `Node::write` drops each child's `Result`
(`src/main.rs:51-53`).  With a store that fails the row update of the
child (rowid 2) and nothing else, the child's own write returns an
error, yet writing the parent tree — and `Document::write` — returns
`Ok`, silently swallowing the child failure instead of propagating it. -/
theorem node_write_swallows_child_error :
    (nodeWrite failOn2 c4child []).2 = Except.error () ∧
    (nodeWrite failOn2 c4tree []).2 = Except.ok () ∧
    (docWrite failOn2 c4tree []).2 = Except.ok () :=
  ⟨rfl, rfl, rfl⟩

/-- Claim C1: reopening the store produced by `main`'s seven
`create_node` calls against an initially empty store reconstructs the
claimed tree: the root's children are exactly `node_a, node_g`,
`node_a`'s are exactly `node_b, node_f`, `node_b`'s are exactly
`node_c, node_d, node_e`, and the five remaining nodes have empty
children maps. -/
theorem scenario_reopen_tree :
    namesAt scenarioDoc PathT.root = some [str "node_a", str "node_g"] ∧
    namesAt scenarioDoc pNodeA = some [str "node_b", str "node_f"] ∧
    namesAt scenarioDoc pNodeAB = some [str "node_c", str "node_d", str "node_e"] ∧
    namesAt scenarioDoc (PathT.join pNodeAB (str "node_c")) = some [] ∧
    namesAt scenarioDoc (PathT.join pNodeAB (str "node_d")) = some [] ∧
    namesAt scenarioDoc (PathT.join pNodeAB (str "node_e")) = some [] ∧
    namesAt scenarioDoc (PathT.join pNodeA (str "node_f")) = some [] ∧
    namesAt scenarioDoc (PathT.join PathT.root (str "node_g")) = some [] :=
  ⟨rfl, rfl, rfl, rfl, rfl, rfl, rfl, rfl⟩

theorem render_concat (segs : List (List Char)) (a : List Char) :
    render (segs ++ [a]) = render segs ++ '/' :: a := by
  induction segs with
  | nil => simp [render]
  | cons s rest ih => simp [render] at ih ⊢; simp [ih]

theorem rsplitOnce_append {b : List Char} (hb : '/' ∉ b) (a : List Char) :
    rsplitOnce (a ++ '/' :: b) = some (a, b) := by
  induction a with
  | nil => simp [rsplitOnce, rsplitOnce_of_not_mem hb]
  | cons c rest ih => simp [rsplitOnce, ih]

theorem parse_render (segs : List (List Char)) (h : ∀ s ∈ segs, '/' ∉ s) :
    parse (render segs) = buildPath segs := by
  induction segs using List.reverseRecOn with
  | nil => rfl
  | append_singleton init a ih =>
    have ha : '/' ∉ a := h a (by simp)
    have hinit : ∀ s ∈ init, '/' ∉ s := fun s hs => h s (by simp [hs])
    rw [render_concat, parse_eq, rsplitOnce_append ha]
    show (parse (render init)).join a = buildPath (init ++ [a])
    rw [ih hinit]
    simp [buildPath]

theorem toStringAux_build (segs : List (List Char)) :
    toStringAux (buildPath segs) = render segs := by
  induction segs using List.reverseRecOn with
  | nil => rfl
  | append_singleton init a ih =>
    have : buildPath (init ++ [a]) = .part (buildPath init) a := by simp [buildPath, PathT.join]
    rw [this, toStringAux, ih, render_concat]

/-- Claim C7: for every path string in canonical form — the rendering
`/s1/.../sn` of a non-empty list of non-empty, slash-free segments,
i.e. no empty segments, no trailing slash, no double slash —
`ModelPath::parse` followed by `to_string` gives back the same string. -/
theorem parse_toString_roundtrip (segs : List (List Char)) (h1 : segs ≠ [])
    (h2 : ∀ s ∈ segs, s ≠ [] ∧ '/' ∉ s) :
    pathToString (parse (render segs)) = render segs := by
  rw [parse_render segs (fun s hs => (h2 s hs).2)]
  rcases List.eq_nil_or_concat segs with hnil | ⟨init, a, hconcat⟩
  · exact absurd hnil h1
  · rw [List.concat_eq_append] at hconcat
    subst hconcat
    have hb : buildPath (init ++ [a]) = .part (buildPath init) a := by
      simp [buildPath, PathT.join]
    rw [hb]
    show toStringAux (.part (buildPath init) a) = render (init ++ [a])
    rw [← hb, toStringAux_build]

/-- Witness for `parse_toString_roundtrip` at the canonical string
`"/node_a/node_b"`. -/
theorem parse_toString_roundtrip_app :
    pathToString (parse (render [str "node_a", str "node_b"]))
      = render [str "node_a", str "node_b"] :=
  parse_toString_roundtrip [str "node_a", str "node_b"] (by decide) (by decide)

theorem lookupKey_none_not_mem {tab : List ((Nat × List Char) × Nat)} {k : Nat × List Char}
    (h : lookupKey tab k = none) : k ∉ tab.map Prod.fst := by
  induction tab with
  | nil => simp
  | cons e rest ih =>
    obtain ⟨k0, v0⟩ := e
    rw [lookupKey] at h
    by_cases hk : k0 = k
    · rw [if_pos hk] at h; exact absurd h (by simp)
    · rw [if_neg hk] at h
      simp only [List.map_cons, List.mem_cons, not_or]
      exact ⟨fun he => hk he.symm, ih h⟩

theorem joinS_lookup (s : InternState) (p : Nat) (n : List Char) :
    lookupKey (joinS s p n).1.table (p, n) = some (joinS s p n).2 := by
  rw [joinS]
  cases h : lookupKey s.table (p, n) with
  | some v => exact h
  | none => simp [lookupKey]

theorem joinS_fetch {s : InternState} {p : Nat} {n : List Char} {v : Nat}
    (h : lookupKey s.table (p, n) = some v) : joinS s p n = (s, v) := by
  rw [joinS, h]

theorem joinS_extends (s : InternState) (p : Nat) (n : List Char) :
    Extends s (joinS s p n).1 := by
  intro k v hv
  rw [joinS]
  cases h : lookupKey s.table (p, n) with
  | some w => exact hv
  | none =>
    show lookupKey (((p, n), s.next) :: s.table) k = some v
    rw [lookupKey]
    by_cases hk : (p, n) = k
    · rw [← hk] at hv; rw [hv] at h; exact absurd h (by simp)
    · rw [if_neg hk]; exact hv

theorem extends_trans {s t u : InternState} (h1 : Extends s t) (h2 : Extends t u) :
    Extends s u := fun k v hv => h2 k v (h1 k v hv)

theorem reachFrom_extends {s t : InternState} (h : ReachFrom s t) : Extends s t := by
  induction h with
  | refl => exact fun k v hv => hv
  | join p n _ ih => exact extends_trans ih (joinS_extends _ p n)

theorem reachFrom_trans {s t u : InternState} (h1 : ReachFrom s t) (h2 : ReachFrom t u) :
    ReachFrom s u := by
  induction h2 with
  | refl => exact h1
  | join p n _ ih => exact ReachFrom.join p n ih

theorem parseSF_irrel : ∀ (f1 f2 : Nat) (s : InternState) (l : List Char),
    l.length < f1 → l.length < f2 → parseSF f1 s l = parseSF f2 s l := by
  intro f1
  induction f1 with
  | zero => intro f2 s l h1 _; exact absurd h1 (Nat.not_lt_zero _)
  | succ n ih =>
    intro f2 s l h1 h2
    cases f2 with
    | zero => exact absurd h2 (Nat.not_lt_zero _)
    | succ m =>
      simp only [parseSF]
      cases hr : rsplitOnce l with
      | none => rfl
      | some pn =>
        obtain ⟨pre, name⟩ := pn
        have hl : pre.length < l.length := by
          have := rsplitOnce_some hr
          subst this
          simp [List.length_append]
        show joinS (parseSF n s pre).1 (parseSF n s pre).2 name
            = joinS (parseSF m s pre).1 (parseSF m s pre).2 name
        rw [ih m s pre (by omega) (by omega)]

theorem parseS_eq (s : InternState) (l : List Char) :
    parseS s l = match rsplitOnce l with
      | some (pre, name) => joinS (parseS s pre).1 (parseS s pre).2 name
      | none => (s, rootId) := by
  cases hr : rsplitOnce l with
  | none =>
    show parseSF (l.length + 1) s l = (s, rootId)
    simp only [parseSF, hr]
  | some pn =>
    obtain ⟨pre, name⟩ := pn
    have hl : pre.length < l.length := by
      have := rsplitOnce_some hr
      subst this
      simp [List.length_append]
    show parseSF (l.length + 1) s l = joinS (parseS s pre).1 (parseS s pre).2 name
    simp only [parseSF, hr]
    show joinS (parseSF l.length s pre).1 (parseSF l.length s pre).2 name
        = joinS (parseS s pre).1 (parseS s pre).2 name
    rw [parseSF_irrel l.length (pre.length + 1) s pre (by omega) (by omega)]
    rfl

theorem joinS_stable {s t : InternState} {p : Nat} {n : List Char}
    (h : Extends (joinS s p n).1 t) : joinS t p n = (t, (joinS s p n).2) :=
  joinS_fetch (h (p, n) (joinS s p n).2 (joinS_lookup s p n))

theorem parseS_stable : ∀ (N : Nat) (l : List Char), l.length ≤ N →
    ∀ (s t : InternState), Extends (parseS s l).1 t →
      parseS t l = (t, (parseS s l).2) := by
  intro N
  induction N with
  | zero =>
    intro l hl s t _
    have hnil : l = [] := List.eq_nil_of_length_eq_zero (Nat.le_zero.mp hl)
    subst hnil
    have hs : parseS s [] = (s, rootId) := by rw [parseS_eq]; rfl
    have ht : parseS t [] = (t, rootId) := by rw [parseS_eq]; rfl
    rw [ht, hs]
  | succ n ih =>
    intro l hl s t h
    cases hr : rsplitOnce l with
    | none =>
      have hs : parseS s l = (s, rootId) := by rw [parseS_eq, hr]
      have ht : parseS t l = (t, rootId) := by rw [parseS_eq, hr]
      rw [ht, hs]
    | some pn =>
      obtain ⟨pre, name⟩ := pn
      have hlen : pre.length < l.length := by
        have := rsplitOnce_some hr
        subst this
        simp [List.length_append]
      have hs : parseS s l = joinS (parseS s pre).1 (parseS s pre).2 name := by
        rw [parseS_eq, hr]
      have ht : parseS t l = joinS (parseS t pre).1 (parseS t pre).2 name := by
        rw [parseS_eq, hr]
      rw [hs] at h
      have hext : Extends (parseS s pre).1 t :=
        extends_trans (joinS_extends (parseS s pre).1 (parseS s pre).2 name) h
      rw [ht, ih pre (by omega) s t hext, hs]
      exact joinS_stable h

theorem joinS_nodup {s : InternState} (h : (s.table.map Prod.fst).Nodup)
    (p : Nat) (n : List Char) : ((joinS s p n).1.table.map Prod.fst).Nodup := by
  rw [joinS]
  cases hl : lookupKey s.table (p, n) with
  | some v => exact h
  | none => exact List.nodup_cons.mpr ⟨lookupKey_none_not_mem hl, h⟩

theorem reachFrom_nodup {s t : InternState} (h : (s.table.map Prod.fst).Nodup)
    (hr : ReachFrom s t) : (t.table.map Prod.fst).Nodup := by
  induction hr with
  | refl => exact h
  | join p n _ ih => exact joinS_nodup ih p n

theorem parseS_reachFrom : ∀ (N : Nat) (l : List Char), l.length ≤ N →
    ∀ s : InternState, ReachFrom s (parseS s l).1 := by
  intro N
  induction N with
  | zero =>
    intro l hl s
    have hnil : l = [] := List.eq_nil_of_length_eq_zero (Nat.le_zero.mp hl)
    subst hnil
    have hs : parseS s [] = (s, rootId) := by rw [parseS_eq]; rfl
    rw [hs]
    exact ReachFrom.refl
  | succ n ih =>
    intro l hl s
    cases hr : rsplitOnce l with
    | none =>
      have hs : parseS s l = (s, rootId) := by rw [parseS_eq, hr]
      rw [hs]
      exact ReachFrom.refl
    | some pn =>
      obtain ⟨pre, name⟩ := pn
      have hlen : pre.length < l.length := by
        have := rsplitOnce_some hr
        subst this
        simp [List.length_append]
      have hs : parseS s l = joinS (parseS s pre).1 (parseS s pre).2 name := by
        rw [parseS_eq, hr]
      rw [hs]
      exact ReachFrom.join _ name (ih pre (by omega) s)

/-- Claim C2: repeated `ModelPath::parse` of the same string — with any
interleaved interner activity `ReachFrom` in between, in particular
none — returns the same node identity and inserts nothing new, and
likewise for repeated `join` with the same `(parent, segment)` key;
moreover every interner state reachable from process start has at most
one table entry per `PathKey`. -/
theorem interning_uniqueness :
    (∀ (s : InternState) (l : List Char) (t : InternState),
        ReachFrom (parseS s l).1 t → parseS t l = (t, (parseS s l).2)) ∧
    (∀ (s : InternState) (p : Nat) (n : List Char) (t : InternState),
        ReachFrom (joinS s p n).1 t → joinS t p n = (t, (joinS s p n).2)) ∧
    (∀ s : InternState, ReachFrom initState s → (s.table.map Prod.fst).Nodup) :=
  ⟨fun s l t h => parseS_stable l.length l le_rfl s t (reachFrom_extends h),
   fun _ _ _ _ h => joinS_stable (reachFrom_extends h),
   fun _ h => reachFrom_nodup (by simp [initState]) h⟩

/-- Witness for `interning_uniqueness`: a second parse of `"/a/b"`
right after a first one from the empty interner returns the same
handle and leaves the state unchanged, and that state's table has no
duplicate key. -/
theorem interning_uniqueness_app :
    parseS (parseS initState (str "/a/b")).1 (str "/a/b")
      = ((parseS initState (str "/a/b")).1, (parseS initState (str "/a/b")).2) ∧
    (((parseS initState (str "/a/b")).1.table.map Prod.fst)).Nodup :=
  ⟨interning_uniqueness.1 initState (str "/a/b") _ ReachFrom.refl,
   interning_uniqueness.2.2 _ (parseS_reachFrom (str "/a/b").length (str "/a/b") le_rfl initState)⟩

/-- Claim C9: concurrent callers of `join` interleave atomic
insert-or-fetch steps (each `DashMap::entry` call holds the shard
lock).  Once one call with key `(p, n)` has completed, every later call
with the same key — after any interleaving `t` of other threads'
operations — returns the very same node identity and does not change
the state: at most one Path Node is ever created and inserted for the
key, and no caller can observe a duplicate. -/
theorem concurrent_join_race :
    ∀ (s : InternState) (p : Nat) (n : List Char) (t : InternState),
      ReachFrom (joinS s p n).1 t →
      (joinS t p n).2 = (joinS s p n).2 ∧ (joinS t p n).1 = t :=
  fun _ _ _ _ h =>
    ⟨by rw [joinS_stable (reachFrom_extends h)],
     by rw [joinS_stable (reachFrom_extends h)]⟩

/-- Witness for `concurrent_join_race`: thread 1 interns `"a"` under
the root, thread 2 then interns `"b"`, and thread 1's retry of `"a"`
still gets its original node with no state change. -/
theorem concurrent_join_race_app :
    (joinS (joinS (joinS initState rootId (str "a")).1 rootId (str "b")).1 rootId (str "a")).2
      = (joinS initState rootId (str "a")).2 ∧
    (joinS (joinS (joinS initState rootId (str "a")).1 rootId (str "b")).1 rootId (str "a")).1
      = (joinS (joinS initState rootId (str "a")).1 rootId (str "b")).1 :=
  concurrent_join_race initState rootId (str "a") _
    (ReachFrom.join rootId (str "b") ReachFrom.refl)

theorem InvNode.spec {q : DocNode} (h : InvNode q) :
    ∀ k c, (k, c) ∈ q.children → c.path = q.path.join k ∧ InvNode c := by
  cases h with
  | mk id p children hpath hinv => exact fun k c hm => ⟨hpath k c hm, hinv k c hm⟩

theorem invNode_of_children_nil {n : DocNode} (h : n.children = []) : InvNode n := by
  cases n with
  | mk id p children =>
    have hc : children = [] := h
    subst hc
    exact InvNode.mk id p [] (by simp) (by simp)

theorem mem_insertAssoc {z : List Char × DocNode} {key : List Char} {v : DocNode} :
    ∀ {l : List (List Char × DocNode)}, z ∈ insertAssoc key v l → z = (key, v) ∨ z ∈ l := by
  intro l
  induction l with
  | nil => intro h; simp [insertAssoc] at h; exact Or.inl h
  | cons e rest ih =>
    obtain ⟨k, w⟩ := e
    intro h
    rw [insertAssoc] at h
    by_cases hk : k = key
    · rw [if_pos hk] at h
      rcases List.mem_cons.mp h with h1 | h1
      · exact Or.inl h1
      · exact Or.inr (List.mem_cons.mpr (Or.inr h1))
    · rw [if_neg hk] at h
      rcases List.mem_cons.mp h with h1 | h1
      · exact Or.inr (List.mem_cons.mpr (Or.inl h1))
      · rcases ih h1 with h2 | h2
        · exact Or.inl h2
        · exact Or.inr (List.mem_cons.mpr (Or.inr h2))

theorem lookupAssoc_mem : ∀ {l : List (List Char × DocNode)} {key : List Char} {c : DocNode},
    lookupAssoc l key = some c → (key, c) ∈ l := by
  intro l
  induction l with
  | nil => intro key c h; simp [lookupAssoc] at h
  | cons e rest ih =>
    obtain ⟨k, w⟩ := e
    intro key c h
    rw [lookupAssoc] at h
    by_cases hk : k = key
    · rw [if_pos hk] at h
      injection h with h1
      subst hk; subst h1
      exact List.mem_cons.mpr (Or.inl rfl)
    · rw [if_neg hk] at h
      exact List.mem_cons.mpr (Or.inr (ih h))

theorem addChild_inv {q n : DocNode} (hq : InvNode q) (hn : InvNode n)
    (hpath : n.path = q.path.join (pathName n.path)) :
    InvNode (addChild q n) ∧ (addChild q n).path = q.path := by
  cases q with
  | mk id p children =>
    refine ⟨InvNode.mk id p (insertAssoc (pathName n.path) n children) ?_ ?_, rfl⟩
    · intro k c hm
      rcases mem_insertAssoc hm with h1 | h1
      · injection h1 with hk hc
        subst hk; subst hc
        exact hpath
      · exact (InvNode.spec hq k c h1).1
    · intro k c hm
      rcases mem_insertAssoc hm with h1 | h1
      · injection h1 with hk hc
        subst hc
        exact hn
      · exact (InvNode.spec hq k c h1).2

theorem modifyAtO_inv (p : PathT) :
    ∀ (f : DocNode → Option DocNode),
      (∀ q q2, InvNode q → q.path = p → f q = some q2 → InvNode q2 ∧ q2.path = p) →
      ∀ (r r2 : DocNode), InvNode r → r.path = PathT.root →
        modifyAtO r p f = some r2 → InvNode r2 ∧ r2.path = PathT.root := by
  induction p with
  | root =>
    intro f hf r r2 hr hroot h
    exact hf r r2 hr hroot h
  | part pre last ihp =>
    intro f hf r r2 hr hroot h
    rw [modifyAtO] at h
    refine ihp _ ?_ r r2 hr hroot h
    intro q q2 hq hqp hg
    cases hl : lookupAssoc q.children last with
    | none =>
      rw [hl] at hg
      have hg2 : (none : Option DocNode) = some q2 := hg
      exact absurd hg2 (by simp)
    | some c =>
      rw [hl] at hg
      have hg2 : Option.map
          (fun c2 => DocNode.mk q.idn q.path (insertAssoc last c2 q.children)) (f c)
          = some q2 := hg
      cases hfc : f c with
      | none =>
        rw [hfc] at hg2
        have hg3 : (none : Option DocNode) = some q2 := hg2
        exact absurd hg3 (by simp)
      | some c2 =>
        rw [hfc] at hg2
        have hg3 : some (DocNode.mk q.idn q.path (insertAssoc last c2 q.children))
            = some q2 := hg2
        injection hg3 with h1
        have hcmem := lookupAssoc_mem hl
        have hcspec := InvNode.spec hq last c hcmem
        have hcpath : c.path = PathT.part pre last := by
          rw [hcspec.1, hqp]
          rfl
        have hc2 := hf c c2 hcspec.2 hcpath hfc
        subst h1
        constructor
        · refine InvNode.mk q.idn q.path (insertAssoc last c2 q.children) ?_ ?_
          · intro k c3 hm
            rcases mem_insertAssoc hm with h1 | h1
            · injection h1 with hk hc3
              subst hk; subst hc3
              rw [hc2.2, hqp]
              rfl
            · exact (InvNode.spec hq k c3 h1).1
          · intro k c3 hm
            rcases mem_insertAssoc hm with h1 | h1
            · injection h1 with hk hc3
              subst hc3
              exact hc2.1
            · exact (InvNode.spec hq k c3 h1).2
        · exact hqp

theorem insertLoaded_inv {cur n d : DocNode} (hn : n.children = [])
    (hcur : InvNode cur) (hcurp : cur.path = PathT.root)
    (h : insertLoaded cur n = some d) : InvNode d ∧ d.path = PathT.root := by
  obtain ⟨i, p, ch⟩ := n
  have hch : ch = [] := hn
  subst hch
  rw [insertLoaded] at h
  cases p with
  | root =>
    have h2 : some (DocNode.mk i PathT.root []) = some d := h
    injection h2 with h3
    subst h3
    exact ⟨invNode_of_children_nil rfl, rfl⟩
  | part pre last =>
    have h2 : modifyAtO cur pre
        (fun q => some (addChild q (DocNode.mk i (PathT.part pre last) []))) = some d := h
    have hres := modifyAtO_inv pre _ ?_ cur d hcur hcurp h2
    · exact ⟨hres.1, hres.2⟩
    · intro q q2 hq hqp hfq
      have h3 : some (addChild q (DocNode.mk i (PathT.part pre last) [])) = some q2 := hfq
      injection h3 with h4
      subst h4
      have hpath : (DocNode.mk i (PathT.part pre last) []).path
          = q.path.join (pathName (DocNode.mk i (PathT.part pre last) []).path) := by
        rw [hqp]
        rfl
      have hac := addChild_inv hq
        (@invNode_of_children_nil (DocNode.mk i (PathT.part pre last) []) rfl) hpath
      exact ⟨hac.1, by rw [hac.2, hqp]⟩

theorem insertAll_inv : ∀ (l : List DocNode) (cur d : DocNode),
    (∀ n ∈ l, n.children = []) → InvNode cur → cur.path = PathT.root →
    insertAll cur l = some d → InvNode d ∧ d.path = PathT.root := by
  intro l
  induction l with
  | nil =>
    intro cur d _ hc hcp h
    have h2 : some cur = some d := h
    injection h2 with h3
    subst h3
    exact ⟨hc, hcp⟩
  | cons n rest ih =>
    intro cur d hl hc hcp h
    rw [insertAll] at h
    cases hi : insertLoaded cur n with
    | none =>
      rw [hi] at h
      have h2 : (none : Option DocNode) = some d := h
      exact absurd h2 (by simp)
    | some cur2 =>
      rw [hi] at h
      have h2 : insertAll cur2 rest = some d := h
      have hstep := insertLoaded_inv (hl n (by simp)) hc hcp hi
      exact ih cur2 d (fun m hm => hl m (by simp [hm])) hstep.1 hstep.2 h2

theorem mem_insSorted {z x : List Char × DocNode} :
    ∀ {l : List (List Char × DocNode)}, z ∈ insSorted x l → z = x ∨ z ∈ l := by
  intro l
  induction l with
  | nil =>
    intro h
    rw [insSorted] at h
    simpa using h
  | cons y ys ih =>
    intro h
    rw [insSorted] at h
    by_cases hc : lexLt x.1 y.1 = true
    · rw [if_pos hc] at h
      rcases List.mem_cons.mp h with h1 | h1
      · exact Or.inl h1
      · exact Or.inr h1
    · rw [if_neg hc] at h
      rcases List.mem_cons.mp h with h1 | h1
      · exact Or.inr (List.mem_cons.mpr (Or.inl h1))
      · rcases ih h1 with h2 | h2
        · exact Or.inl h2
        · exact Or.inr (List.mem_cons.mpr (Or.inr h2))

theorem mem_sortNodes {z : List Char × DocNode} :
    ∀ {l : List (List Char × DocNode)}, z ∈ sortNodes l → z ∈ l := by
  intro l
  induction l with
  | nil => intro h; exact h
  | cons x xs ih =>
    intro h
    rw [sortNodes] at h
    rcases mem_insSorted h with h1 | h1
    · simp [h1]
    · exact List.mem_cons.mpr (Or.inr (ih h1))

theorem loadRows_children {rows : List Row} {z : List Char × DocNode}
    (h : z ∈ loadRows rows) : z.2.children = [] := by
  rw [loadRows] at h
  rcases List.mem_map.mp h with ⟨r, _, hz⟩
  subst hz
  rfl

theorem openDoc_inv {st st2 : Store} {d : DocNode} (h : openDoc st = some (st2, d)) :
    InvNode d ∧ d.path = PathT.root := by
  simp only [openDoc] at h
  cases hi : insertAll (DocNode.mk 0 PathT.root [])
      ((sortNodes (loadRows (setupSchema st).rows)).map (fun x => x.2)) with
  | none =>
    rw [hi] at h
    have h2 : (none : Option (Store × DocNode)) = some (st2, d) := h
    exact absurd h2 (by simp)
  | some root =>
    rw [hi] at h
    have h2 : some (setupSchema st, root) = some (st2, d) := h
    injection h2 with h3
    have h4 : root = d := congrArg Prod.snd h3
    subst h4
    refine insertAll_inv _ _ _ ?_ (@invNode_of_children_nil (DocNode.mk 0 PathT.root []) rfl) rfl hi
    intro n hn
    rcases List.mem_map.mp hn with ⟨z, hz, hzn⟩
    have hzc := loadRows_children (mem_sortNodes hz)
    rw [← hzn]
    exact hzc

/-- Claim C8: in every Document state reachable through the public
operations — `open` builds the tree, while `create_node` returns its
node without attaching it (`src/main.rs:253`) and `write` never
mutates — the root node sits at the root path and every entry
`(name, child)` of every node's children map satisfies
`child.base.path == node.base.path.join(name)`. -/
theorem reachable_doc_parent_child :
    ∀ d : DocNode, ReachableDoc d → d.path = PathT.root ∧ InvNode d := by
  intro d h
  induction h with
  | opened hopen => exact ⟨(openDoc_inv hopen).2, (openDoc_inv hopen).1⟩
  | createStep _ ih => exact ih
  | writeStep _ ih => exact ih

/-- Witness for `reachable_doc_parent_child`: the document obtained by
opening an initially empty store. -/
theorem reachable_doc_parent_child_app :
    (DocNode.mk 1 PathT.root []).path = PathT.root ∧ InvNode (DocNode.mk 1 PathT.root []) :=
  reachable_doc_parent_child (DocNode.mk 1 PathT.root [])
    (@ReachableDoc.opened ⟨[], 1⟩ ⟨[⟨1, [], []⟩], 2⟩ (DocNode.mk 1 PathT.root []) rfl)
